import Mathlib

/-!
# MakePath and GetProcessExePath (src/utilcode/makepath.cpp)

A shallow embedding of `MakePath`, the bounded-buffer path assembler, and of
`GetProcessExePath`, the cached query of the executable's path, with the
properties their specification states about them.

* A `WCHAR` is a natural number (the code unit); `0` is the terminator.
* An `LPCWSTR` argument is `none` for `NULL`, and `some s` for a pointer to
  the characters `s` followed by a terminator.
* The output buffer is the memory starting at `path`, a function from offsets
  to characters.  Every store is recorded so that the offsets written can be
  bounded.
* Reading the character before the start of a component is outside the object
  the pointer refers to; the embedding reports it as `none`.
* `GetProcessExePath` is modelled call by call, without interleaving: the
  state is the static cache, and what the code outside the file does during a
  call (the allocation, the platform query, the two error helpers) is a
  parameter of the call.
-/

namespace MakePathModel

/-- A wide character: its code unit.  `0` is the string terminator. -/
abbrev WCHAR := Nat

/-- A `const WCHAR *` argument: `none` is `NULL`, `some s` points at the
characters `s`, which are followed by a terminator. -/
abbrev LPCWSTR := Option (List WCHAR)

/-- Modelled from the spec: the constant `MAX_PATH`, which comes from the
platform headers; "the conventional value (260)". -/
def MAX_PATH : Nat := 260

/-- The characters of a string literal as wide characters. -/
def wstr (s : String) : List WCHAR := s.data.map Char.toNat

/-- The character `':'`. -/
def colon : WCHAR := 58
/-- The character `'.'`. -/
def dot : WCHAR := 46
/-- The character `'/'`. -/
def slash : WCHAR := 47
/-- The character `'\\'`. -/
def backslash : WCHAR := 92

/-- The local state of `MakePath`.

* `mem`: the memory starting at the `path` argument;
* `path`: the offset of the write cursor `path` from its initial value;
* `count`: the `DWORD count`;
* `p`: the offset of the read pointer `p` from the start of the component it
  was last set to;
* `log`: the offsets stored to, most recent first. -/
structure St where
  mem : Nat → WCHAR
  path : Nat
  count : Nat
  p : Nat
  log : List Nat

/-- The store `*path = c`. -/
def St.store (st : St) (c : WCHAR) : St :=
  { st with mem := Function.update st.mem st.path c, log := st.path :: st.log }

/-- The store and advance `*path++ = c`. -/
def St.put (st : St) (c : WCHAR) : St :=
  { st.store c with path := st.path + 1 }

/-- The update `count += n` on a `DWORD`. -/
def St.bump (st : St) (n : Nat) : St :=
  { st with count := (st.count + n) % 2 ^ 32 }

/-- The advance `p++`. -/
def St.next (st : St) : St :=
  { st with p := st.p + 1 }

/-- The truncation exit `--path; *path = _T('\0'); return;`. -/
def St.truncate (st : St) : St :=
  St.store { st with path := st.path - 1 } 0

/-- How a stage ends: control falls through to the following stage, or the
function has returned. -/
inductive Flow where
  | fall (st : St)
  | ret (st : St)

/-- The drive stage (lines 82-86):
`if (drive && *drive) { *path++ = *drive; *path++ = _T(':'); count += 2; }`. -/
def driveStage (drive : LPCWSTR) (st : St) : St :=
  match drive with
  | some (c :: _) =>
    if c ≠ 0 then ((st.put c).put colon).bump 2 else st
  | _ => st

/-- The copy loop of the directory and file name stages (lines 91-100 and
126-135), `rest` being the text at `p`:
`while (*p) { *path++ = *p++; count++;
   if (count == MAX_PATH) { --path; *path = _T('\0'); return; } }`. -/
def copyLoop (cap : Nat) : List WCHAR → St → Flow
  | [], st => Flow.fall st
  | c :: rest, st =>
    if c = 0 then Flow.fall st
    else
      let st1 := ((st.put c).next).bump 1
      if st1.count = cap then Flow.ret st1.truncate
      else copyLoop cap rest st1

/-- The look-back `*(p-1)` of line 110 on the component `s`: `none` when `p`
is at the start of `s`, where `p-1` points before the text. -/
def lookBack (s : List WCHAR) (st : St) : Option WCHAR :=
  if st.p = 0 then none else some (s.getD (st.p - 1) 0)

/-- The directory stage (lines 90-121). -/
def dirStage (cap : Nat) (dir : LPCWSTR) (st : St) : Option Flow :=
  match dir with
  | none => some (Flow.fall st)
  | some d =>
    match copyLoop cap d { st with p := 0 } with
    | Flow.ret st1 => some (Flow.ret st1)
    | Flow.fall st1 =>
      match lookBack d st1 with
      | none => none
      | some c =>
        if c ≠ slash ∧ c ≠ backslash then
          let st2 := (st1.put backslash).bump 1
          if st2.count = cap then some (Flow.ret st2.truncate)
          else some (Flow.fall st2)
        else some (Flow.fall st1)

/-- The file name stage (lines 125-136). -/
def fnameStage (cap : Nat) (fname : LPCWSTR) (st : St) : Flow :=
  match fname with
  | none => Flow.fall st
  | some f => copyLoop cap f { st with p := 0 }

/-- The copy loop of the extension stage (lines 154-162), `rest` being the
text at `p`:
`while ((*path++ = *p++)) { count++;
   if (count == MAX_PATH) { --path; *path = _T('\0'); return; } }`. -/
def extLoop (cap : Nat) : List WCHAR → St → St
  | [], st => (st.put 0).next
  | c :: rest, st =>
    let st1 := (st.put c).next
    if c = 0 then st1
    else
      let st2 := st1.bump 1
      if st2.count = cap then st2.truncate
      else extLoop cap rest st2

/-- The extension stage (lines 142-167). -/
def extStage (cap : Nat) (ext : LPCWSTR) (st : St) : St :=
  match ext with
  | none => st.store 0
  | some e =>
    let st0 := { st with p := 0 }
    if e.headD 0 ≠ 0 ∧ e.headD 0 ≠ dot then
      let st1 := (st0.put dot).bump 1
      if st1.count = cap then st1.truncate
      else extLoop cap e st1
    else extLoop cap e st0

/-- The body of `MakePath` with the constant `MAX_PATH` as the parameter
`cap`, run on the memory `mem` at `path`. -/
def MakePathWith (cap : Nat) (mem : Nat → WCHAR) (drive dir fname ext : LPCWSTR) :
    Option St :=
  let st0 : St := { mem := mem, path := 0, count := 0, p := 0, log := [] }
  match dirStage cap dir (driveStage drive st0) with
  | none => none
  | some (Flow.ret st) => some st
  | some (Flow.fall st) =>
    match fnameStage cap fname st with
    | Flow.ret st1 => some st1
    | Flow.fall st1 => some (extStage cap ext st1)

/-- `MakePath(path, drive, dir, fname, ext)`, where `mem` is the memory at
`path` on entry.  The result is `none` when the call reads outside its
arguments. -/
def MakePath (mem : Nat → WCHAR) (drive dir fname ext : LPCWSTR) : Option St :=
  MakePathWith MAX_PATH mem drive dir fname ext

/-- The string starting at offset `i` of `mem`, reading at most `n`
characters: `none` when none of them is the terminator. -/
def readStr (mem : Nat → WCHAR) : Nat → Nat → Option (List WCHAR)
  | 0, _ => none
  | n + 1, i =>
    if mem i = 0 then some []
    else (readStr mem n (i + 1)).map (fun s => mem i :: s)

/-- The null-terminated string held by a buffer of `cap` characters. -/
def bufString (cap : Nat) (mem : Nat → WCHAR) : Option (List WCHAR) :=
  readStr mem cap 0

/-- The string that a call leaves in the buffer: `none` when the call is
undefined or leaves no terminator within the buffer. -/
def pathOutWith (cap : Nat) (mem : Nat → WCHAR) (drive dir fname ext : LPCWSTR) :
    Option (List WCHAR) :=
  (MakePathWith cap mem drive dir fname ext).bind (fun st => bufString cap st.mem)

/-- The string that `MakePath` leaves in its `MAX_PATH` buffer. -/
def pathOut (mem : Nat → WCHAR) (drive dir fname ext : LPCWSTR) : Option (List WCHAR) :=
  pathOutWith MAX_PATH mem drive dir fname ext

/-! ## The composition the specification describes -/

/-- A path separator: `'/'` or `'\\'`. -/
def isSep (c : WCHAR) : Bool := c == slash || c == backslash

/-- The drive part `D`: the first character of a non-empty drive and a colon. -/
def drivePart : LPCWSTR → List WCHAR
  | some (c :: _) => [c, colon]
  | _ => []

/-- The directory part `R`: the directory, followed by one backslash unless
its last character is a separator; empty for a null directory. -/
def dirPart : LPCWSTR → List WCHAR
  | none => []
  | some d => if d.getLast?.any isSep then d else d ++ [backslash]

/-- The file name part `F`. -/
def fnamePart : LPCWSTR → List WCHAR
  | none => []
  | some f => f

/-- The extension part `E`: empty for a null or empty extension, the
extension itself when it starts with a dot, otherwise a dot and the
extension. -/
def extPart : LPCWSTR → List WCHAR
  | none => []
  | some [] => []
  | some (c :: e) => if c = dot then c :: e else dot :: c :: e

/-- The untruncated composition `C = D ++ R ++ F ++ E`. -/
def composed (drive dir fname ext : LPCWSTR) : List WCHAR :=
  drivePart drive ++ dirPart dir ++ fnamePart fname ++ extPart ext

/-- The text ends in a separator and the character before that separator, if
there is one, is not a separator. -/
def EndsInOneSep (l : List WCHAR) : Bool :=
  l.getLast?.any isSep && !(l.dropLast.getLast?.any isSep)

/-- The last two characters of the text are both separators. -/
def EndsInTwoSeps (l : List WCHAR) : Bool :=
  l.getLast?.any isSep && l.dropLast.getLast?.any isSep

/-- The text of a string argument holds no terminator: the terminator is the
one that follows it. -/
def NoNul : LPCWSTR → Prop
  | none => True
  | some s => ∀ c ∈ s, c ≠ 0

instance (x : LPCWSTR) : Decidable (NoNul x) := by
  cases x <;> unfold NoNul <;> infer_instance

/-- The four arguments are strings or null. -/
def Valid (drive dir fname ext : LPCWSTR) : Prop :=
  NoNul drive ∧ NoNul dir ∧ NoNul fname ∧ NoNul ext

instance (drive dir fname ext : LPCWSTR) : Decidable (Valid drive dir fname ext) := by
  unfold Valid; infer_instance

/-! ## States of the run -/

/-- The state between two writes: the characters `w` have been written, the
cursor and the count stand at their end, and the limit is not reached. -/
structure Running (cap : Nat) (w : List WCHAR) (st : St) : Prop where
  path_eq : st.path = w.length
  count_eq : st.count = w.length
  lt_cap : w.length < cap
  mem_eq : ∀ i, i < w.length → st.mem i = w.getD i 0
  nz : ∀ c ∈ w, c ≠ 0
  log_lt : ∀ i ∈ st.log, i < cap

/-- The state on return: the buffer holds `v` and its terminator, and no
store went past the buffer. -/
structure Final (cap : Nat) (v : List WCHAR) (st : St) : Prop where
  lt_cap : v.length < cap
  mem_eq : ∀ i, i < v.length → st.mem i = v.getD i 0
  term : st.mem v.length = 0
  nz : ∀ c ∈ v, c ≠ 0
  log_lt : ∀ i ∈ st.log, i < cap

/-- What a stage has done once the characters `C` are due: fallen through with
all of `C` written, or returned with the buffer holding its first `cap - 1`
characters. -/
def Flow.Good (cap : Nat) (C : List WCHAR) : Flow → Prop
  | Flow.fall st => Running cap C st
  | Flow.ret st => cap ≤ C.length ∧ Final cap (C.take (cap - 1)) st

/-- C8 as stated, for one call: the call leaves the untruncated composition,
and the directory portion `r` of the output, the text between the drive part
and the file name, ends in exactly one separator. -/
def SingleSeparator (mem : Nat → WCHAR) (drive : LPCWSTR) (d : List WCHAR)
    (fname ext : LPCWSTR) : Prop :=
  ∃ r, pathOut mem drive (some d) fname ext =
      some (drivePart drive ++ r ++ fnamePart fname ++ extPart ext) ∧
    EndsInOneSep r = true

/-- C15 as stated, for one call with the capacity `cap`: the call is defined,
it stores to no offset from `cap` on, and when the composition has length at
least `cap` it leaves a null-terminated string of length exactly `cap - 1`. -/
def WithinCapacity (cap : Nat) (mem : Nat → WCHAR) (drive dir fname ext : LPCWSTR) : Prop :=
  ∃ st, MakePathWith cap mem drive dir fname ext = some st ∧
    (∀ i ∈ st.log, i < cap) ∧
    (cap ≤ (composed drive dir fname ext).length →
      ∃ s, bufString cap st.mem = some s ∧ s.length = cap - 1)

/-! ## The check-before-write assembler of the specification -/

/-- The truncation policy in the specification's words: "maintain a running
count of characters written (excluding the terminator).  Before writing each
character at any stage, check whether the count has reached `capacity`.  If
so, abandon all remaining stages immediately, back up the write cursor by one
position, force that position to the null terminator, and return."  The
characters due are `rest`, then the terminator. -/
def refLoop (cap : Nat) : List WCHAR → St → St
  | [], st => if cap ≤ st.count then st.truncate else st.store 0
  | c :: rest, st =>
    if cap ≤ st.count then st.truncate
    else refLoop cap rest { st.put c with count := st.count + 1 }

/-- The reference assembler: the characters of the stages in their order,
the drive part, the directory part, the file name and the extension part,
then the terminator, each written under the check-before-write policy. -/
def refAssemble (cap : Nat) (mem : Nat → WCHAR) (drive dir fname ext : LPCWSTR) : St :=
  refLoop cap (composed drive dir fname ext)
    { mem := mem, path := 0, count := 0, p := 0, log := [] }

/-- The state of the reference assembler before a check: the characters `w`
are written, and the count may have reached the capacity. -/
structure RefRunning (cap : Nat) (w : List WCHAR) (st : St) : Prop where
  path_eq : st.path = w.length
  count_eq : st.count = w.length
  le_cap : w.length ≤ cap
  mem_eq : ∀ i, i < w.length → st.mem i = w.getD i 0
  nz : ∀ c ∈ w, c ≠ 0
  log_lt : ∀ i ∈ st.log, i < cap

/-! ## GetProcessExePath (sequential model) -/

/-- Modelled from the spec: an `HRESULT`, declared in the platform headers, a
signed result code; the query's failure "is surfaced to the caller as a
failure result", which is a negative code. -/
abbrev HRESULT := Int

/-- Modelled from the spec: `S_OK` of the platform headers, the success
result. -/
def S_OK : HRESULT := 0

/-- Modelled from the spec: `FAILED(hr)` of the platform headers. -/
def FAILED (hr : HRESULT) : Prop := hr < 0

/-- Modelled from the spec: `SUCCEEDED(hr)` of the platform headers. -/
def SUCCEEDED (hr : HRESULT) : Prop := 0 ≤ hr

instance (hr : HRESULT) : Decidable (FAILED hr) := by unfold FAILED; infer_instance

instance (hr : HRESULT) : Decidable (SUCCEEDED hr) := by unfold SUCCEEDED; infer_instance

/-- What the code outside this file does during one call.

* `newArray`: whether `new (nothrow) WCHAR[_MAX_PATH]` returns a non-null
  pointer;
* `cchProcName`: the length that `WszGetModuleFileName` returns, `0` on
  failure;
* `procName`: the text that `WszGetModuleFileName` leaves in the array;
* `hrNull`: the result that `IfNullRet` returns for a null pointer;
* `hrLastError`: the value of `HRESULT_FROM_GetLastError()`. -/
structure Platform where
  newArray : Bool
  cchProcName : Nat
  procName : List WCHAR
  hrNull : HRESULT
  hrLastError : HRESULT

/-- The helpers outside this file return failure results. -/
def Platform.Sound (env : Platform) : Prop := FAILED env.hrNull ∧ FAILED env.hrLastError

instance (env : Platform) : Decidable env.Sound := by unfold Platform.Sound; infer_instance

/-- Modelled from the spec: `InterlockedCompareExchangeT(dest, exch, comparand)`,
the "atomic compare-and-swap" declared outside this file, run without
interleaving: the new value of `*dest` and the value returned, which is the
initial value of `*dest`. -/
def InterlockedCompareExchangeT (dest exch comparand : LPCWSTR) : LPCWSTR × LPCWSTR :=
  (if dest = comparand then exch else dest, dest)

/-- The outcome of one call of `GetProcessExePath`.

* `hr`: the value returned;
* `g_wszProcessExePath`: the static cache after the call;
* `out`: the value of `*pwszProcessExePath` after the call;
* `wrote`: whether `*pwszProcessExePath` was assigned;
* `queried`: whether `WszGetModuleFileName` was called. -/
structure ExeResult where
  hr : HRESULT
  g_wszProcessExePath : LPCWSTR
  out : LPCWSTR
  wrote : Bool
  queried : Bool
  deriving DecidableEq

/-- `GetProcessExePath(pwszProcessExePath)` (lines 173-206), run with the
static `g` and the prior value `out` of `*pwszProcessExePath`. -/
def GetProcessExePath (env : Platform) (g : LPCWSTR) (out : LPCWSTR) : ExeResult :=
  let hr := S_OK
  if g = none then
    if env.newArray = false then
      { hr := env.hrNull, g_wszProcessExePath := g, out := out, wrote := false,
        queried := false }
    else if env.cchProcName = 0 then
      { hr := env.hrLastError, g_wszProcessExePath := g, out := out, wrote := false,
        queried := true }
    else
      let g1 := (InterlockedCompareExchangeT g (some env.procName) none).1
      { hr := hr, g_wszProcessExePath := g1, out := g1, wrote := true, queried := true }
  else
    { hr := hr, g_wszProcessExePath := g, out := g, wrote := true, queried := false }

/-- A sequence of calls, each with its platform behaviour and the prior value
of its output variable, starting from the static `g`. -/
def runCalls : List (Platform × LPCWSTR) → LPCWSTR → List ExeResult
  | [], _ => []
  | (env, out) :: rest, g =>
    let r := GetProcessExePath env g out
    r :: runCalls rest r.g_wszProcessExePath

/-! ## The run keeps its invariants -/

theorem readStr_of_agree (mem : Nat → WCHAR) (v : List WCHAR) :
    ∀ (n i : Nat), v.length < n → (∀ j, j < v.length → mem (i + j) = v.getD j 0) →
      mem (i + v.length) = 0 → (∀ c ∈ v, c ≠ 0) → readStr mem n i = some v := by
  induction v with
  | nil =>
    intro n i hn _ ht _
    cases n with
    | zero => simp at hn
    | succ n => simpa [readStr] using ht
  | cons c v ih =>
    intro n i hn hm ht hz
    cases n with
    | zero => simp at hn
    | succ n =>
      have h0 : mem i = c := by simpa using hm 0 (by simp)
      have hc : c ≠ 0 := hz c (by simp)
      have hrec : readStr mem n (i + 1) = some v := by
        apply ih
        · simpa using hn
        · intro j hj
          have := hm (j + 1) (by simpa using hj)
          simpa [Nat.add_assoc, Nat.add_comm 1 j] using this
        · simpa [Nat.add_assoc, Nat.add_comm 1 v.length] using ht
        · intro d hd
          exact hz d (by simp [hd])
      simp [readStr, h0, hc, hrec]

theorem Final.bufString_eq {cap : Nat} {v : List WCHAR} {st : St} (h : Final cap v st) :
    bufString cap st.mem = some v := by
  unfold bufString
  apply readStr_of_agree
  · exact h.lt_cap
  · intro j hj; simpa using h.mem_eq j hj
  · simpa using h.term
  · exact h.nz

theorem getD_snoc_lt (w : List WCHAR) (c : WCHAR) (i : Nat) (hi : i < w.length) :
    (w ++ [c]).getD i 0 = w.getD i 0 := by
  simp [List.getD_eq_getElem?_getD, List.getElem?_append_left hi]

theorem getD_snoc_eq (w : List WCHAR) (c : WCHAR) : (w ++ [c]).getD w.length 0 = c := by
  simp [List.getD_eq_getElem?_getD]

/-- One character written and counted: either the limit is reached and the
truncation exit leaves `w`, or the run goes on with `w ++ [c]`. -/
theorem step_inv {cap : Nat} {w : List WCHAR} {st : St} (st1 : St) (c : WCHAR)
    (h : Running cap w st) (hcap : cap < 2 ^ 32) (hc : c ≠ 0)
    (hmem : st1.mem = Function.update st.mem st.path c)
    (hpath : st1.path = st.path + 1)
    (hcount : st1.count = (st.count + 1) % 2 ^ 32)
    (hlog : st1.log = st.path :: st.log) :
    (st1.count = cap ↔ w.length + 1 = cap) ∧
    (w.length + 1 ≠ cap → Running cap (w ++ [c]) st1) ∧
    (w.length + 1 = cap → Final cap w st1.truncate) := by
  have hlt := h.lt_cap
  have hcnt : st1.count = w.length + 1 := by
    rw [hcount, h.count_eq]
    exact Nat.mod_eq_of_lt (by omega)
  refine ⟨by rw [hcnt], ?_, ?_⟩
  · intro hne
    refine ⟨by simp [hpath, h.path_eq], by simp [hcnt], by simp; omega, ?_, ?_, ?_⟩
    · intro i hi
      rw [hmem, h.path_eq]
      by_cases hiw : i = w.length
      · subst hiw
        simp [getD_snoc_eq]
      · have hi2 : i < w.length := by
          simp at hi; omega
        rw [Function.update_noteq hiw, getD_snoc_lt w c i hi2]
        exact h.mem_eq i hi2
    · intro d hd
      rcases List.mem_append.1 hd with hd | hd
      · exact h.nz d hd
      · simp at hd; subst hd; exact hc
    · intro i hi
      rw [hlog] at hi
      rcases List.mem_cons.1 hi with hi | hi
      · rw [hi, h.path_eq]; exact hlt
      · exact h.log_lt i hi
  · intro _
    refine ⟨hlt, ?_, ?_, h.nz, ?_⟩
    · intro i hi
      have hne : i ≠ w.length := by omega
      simp only [St.truncate, St.store, hpath, hmem, h.path_eq, Nat.add_sub_cancel]
      rw [Function.update_noteq hne, Function.update_noteq hne]
      exact h.mem_eq i hi
    · simp [St.truncate, St.store, hpath, h.path_eq]
    · intro i hi
      simp only [St.truncate, St.store, hpath, hlog, h.path_eq, Nat.add_sub_cancel,
        List.mem_cons] at hi
      rcases hi with hi | hi | hi
      · omega
      · omega
      · exact h.log_lt i hi

theorem Running.set_p {cap : Nat} {w : List WCHAR} {st : St} (h : Running cap w st) (n : Nat) :
    Running cap w { st with p := n } :=
  ⟨h.path_eq, h.count_eq, h.lt_cap, h.mem_eq, h.nz, h.log_lt⟩

theorem copyLoop_good (cap : Nat) (hcap : cap < 2 ^ 32) (s : List WCHAR) :
    ∀ (w : List WCHAR) (st : St), Running cap w st → (∀ c ∈ s, c ≠ 0) →
      Flow.Good cap (w ++ s) (copyLoop cap s st) ∧
      ∀ st1, copyLoop cap s st = Flow.fall st1 → st1.p = st.p + s.length := by
  induction s with
  | nil =>
    intro w st h _
    simp [copyLoop, Flow.Good, h]
  | cons c s ih =>
    intro w st h hz
    have hc : c ≠ 0 := hz c (by simp)
    have hs : ∀ d ∈ s, d ≠ 0 := fun d hd => hz d (by simp [hd])
    obtain ⟨hiff, hgo, hstop⟩ := step_inv (((st.put c).next).bump 1) c h hcap hc
      rfl rfl rfl rfl
    simp only [copyLoop, hc, if_false]
    by_cases hcount : (((st.put c).next).bump 1).count = cap
    · have hlen := hiff.1 hcount
      simp only [hcount, if_true]
      refine ⟨?_, by simp⟩
      have hfin := hstop hlen
      have htake : (w ++ c :: s).take (cap - 1) = w := by
        have : cap - 1 = w.length := by omega
        rw [this]; simp
      simp only [Flow.Good, htake]
      exact ⟨by simp; omega, hfin⟩
    · have hlen : w.length + 1 ≠ cap := fun e => hcount (hiff.2 e)
      simp only [hcount, if_false]
      have := ih (w ++ [c]) _ (hgo hlen) hs
      simp only [List.append_assoc, List.singleton_append] at this
      refine ⟨this.1, ?_⟩
      intro st1 h1
      rw [this.2 st1 h1]
      simp [St.bump, St.next, St.put, St.store]
      omega

theorem extLoop_fin (cap : Nat) (hcap : cap < 2 ^ 32) (s : List WCHAR) :
    ∀ (w : List WCHAR) (st : St), Running cap w st → (∀ c ∈ s, c ≠ 0) →
      Final cap ((w ++ s).take (cap - 1)) (extLoop cap s st) := by
  induction s with
  | nil =>
    intro w st h _
    have hlt := h.lt_cap
    have htake : (w ++ []).take (cap - 1) = w := by
      simp; omega
    rw [htake]
    refine ⟨hlt, ?_, ?_, h.nz, ?_⟩
    · intro i hi
      have hne : i ≠ w.length := by omega
      simp only [extLoop, St.next, St.put, St.store, h.path_eq]
      rw [Function.update_noteq hne]
      exact h.mem_eq i hi
    · simp [extLoop, St.next, St.put, St.store, h.path_eq]
    · intro i hi
      simp only [extLoop, St.next, St.put, St.store, h.path_eq, List.mem_cons] at hi
      rcases hi with hi | hi
      · omega
      · exact h.log_lt i hi
  | cons c s ih =>
    intro w st h hz
    have hc : c ≠ 0 := hz c (by simp)
    have hs : ∀ d ∈ s, d ≠ 0 := fun d hd => hz d (by simp [hd])
    obtain ⟨hiff, hgo, hstop⟩ := step_inv (((st.put c).next).bump 1) c h hcap hc
      rfl rfl rfl rfl
    simp only [extLoop, hc, if_false]
    by_cases hcount : (((st.put c).next).bump 1).count = cap
    · have hlen := hiff.1 hcount
      simp only [hcount, if_true]
      have htake : (w ++ c :: s).take (cap - 1) = w := by
        have : cap - 1 = w.length := by omega
        rw [this]; simp
      rw [htake]
      exact hstop hlen
    · have hlen : w.length + 1 ≠ cap := fun e => hcount (hiff.2 e)
      simp only [hcount, if_false]
      have := ih (w ++ [c]) _ (hgo hlen) hs
      simpa only [List.append_assoc, List.singleton_append] using this

theorem Flow.Good.ret_append {cap : Nat} {C : List WCHAR} {st : St}
    (h : Flow.Good cap C (Flow.ret st)) (t : List WCHAR) :
    Flow.Good cap (C ++ t) (Flow.ret st) := by
  obtain ⟨hlen, hfin⟩ := h
  refine ⟨by simp; omega, ?_⟩
  rw [List.take_append_of_le_length (by omega)]
  exact hfin

theorem driveStage_inv (cap : Nat) (mem : Nat → WCHAR) (drive : LPCWSTR)
    (hz : NoNul drive) (hcap : (drivePart drive).length < cap) :
    Running cap (drivePart drive)
      (driveStage drive { mem := mem, path := 0, count := 0, p := 0, log := [] }) := by
  have h0 : Running cap [] { mem := mem, path := 0, count := 0, p := 0, log := [] } :=
    ⟨rfl, rfl, by simpa using Nat.zero_lt_of_lt hcap, by simp, by simp, by simp⟩
  match drive, hz, hcap with
  | none, _, _ => exact h0
  | some [], _, _ => exact h0
  | some (c :: t), hz, hcap =>
    have hc : c ≠ 0 := hz c (by simp)
    have hcap2 : 2 < cap := by simpa [drivePart] using hcap
    simp only [driveStage, drivePart, hc, ne_eq, not_false_eq_true, if_true]
    refine ⟨rfl, rfl, hcap2, ?_, ?_, ?_⟩
    · intro i hi
      have : i = 0 ∨ i = 1 := by
        simp at hi; omega
      rcases this with rfl | rfl <;> simp [St.bump, St.put, St.store]
    · intro d hd
      simp at hd
      rcases hd with rfl | rfl
      · exact hc
      · simp [colon]
    · intro i hi
      simp [St.bump, St.put, St.store] at hi
      omega

theorem lookBack_end (d : List WCHAR) (st : St) (hd : d ≠ []) (hp : st.p = d.length) :
    ∃ c, lookBack d st = some c ∧ d.getLast? = some c := by
  have hlen : 0 < d.length := List.length_pos.2 hd
  refine ⟨d.getD (d.length - 1) 0, ?_, ?_⟩
  · simp [lookBack, hp, hd]
  · rw [List.getLast?_eq_getElem?, List.getD_eq_getElem?_getD]
    rw [List.getElem?_eq_getElem (by omega)]
    simp

theorem dirStage_good (cap : Nat) (hcap : cap < 2 ^ 32) (dir : LPCWSTR) (w : List WCHAR)
    (st : St) (h : Running cap w st) (hz : NoNul dir) (hne : dir ≠ some []) :
    ∃ r, dirStage cap dir st = some r ∧ Flow.Good cap (w ++ dirPart dir) r := by
  match dir, hz, hne with
  | none, _, _ => exact ⟨Flow.fall st, rfl, by simpa [dirPart, Flow.Good] using h⟩
  | some d, hz, hne =>
    have hd : d ≠ [] := fun e => hne (by rw [e])
    obtain ⟨hgood, hp⟩ := copyLoop_good cap hcap d w { st with p := 0 } (h.set_p 0) hz
    simp only [dirStage]
    cases hloop : copyLoop cap d { st with p := 0 } with
    | ret st1 =>
      rw [hloop] at hgood
      refine ⟨Flow.ret st1, rfl, ?_⟩
      simp only [dirPart]
      split
      · exact hgood
      · rw [← List.append_assoc]
        exact hgood.ret_append _
    | fall st1 =>
      rw [hloop] at hgood
      have hinv : Running cap (w ++ d) st1 := hgood
      have hp1 : st1.p = d.length := by simpa using hp st1 hloop
      obtain ⟨c, hlook, hlast⟩ := lookBack_end d st1 hd hp1
      simp only [hlook, dirPart, hlast, Option.any_some]
      by_cases hsep : c ≠ slash ∧ c ≠ backslash
      · have hns : isSep c = false := by
          simp [isSep, hsep.1, hsep.2]
        obtain ⟨hiff, hgo, hstop⟩ := step_inv ((st1.put backslash).bump 1)
          backslash hinv hcap (by simp [backslash]) rfl rfl rfl rfl
        rw [if_pos hsep]
        simp only [hns, Bool.false_eq_true, if_false]
        by_cases hcount : ((st1.put backslash).bump 1).count = cap
        · have hlen := hiff.1 hcount
          simp only [hcount, if_true]
          refine ⟨_, rfl, ?_⟩
          have htake : (w ++ (d ++ [backslash])).take (cap - 1) = w ++ d := by
            have : cap - 1 = (w ++ d).length := by omega
            rw [this, ← List.append_assoc, List.take_left]
          simp only [Flow.Good, htake]
          exact ⟨by simp at hlen ⊢; omega, hstop hlen⟩
        · have hlen : (w ++ d).length + 1 ≠ cap := fun e => hcount (hiff.2 e)
          simp only [hcount, if_false]
          refine ⟨_, rfl, ?_⟩
          have := hgo hlen
          simpa only [Flow.Good, List.append_assoc] using this
      · have hs : isSep c = true := by
          simp only [isSep, Bool.or_eq_true, beq_iff_eq]
          by_contra hcon
          exact hsep ⟨fun e => hcon (Or.inl e), fun e => hcon (Or.inr e)⟩
        rw [if_neg hsep]
        simp only [hs, if_true]
        exact ⟨_, rfl, hinv⟩

theorem fnameStage_good (cap : Nat) (hcap : cap < 2 ^ 32) (fname : LPCWSTR)
    (w : List WCHAR) (st : St) (h : Running cap w st) (hz : NoNul fname) :
    Flow.Good cap (w ++ fnamePart fname) (fnameStage cap fname st) := by
  match fname, hz with
  | none, _ => simpa [fnamePart, fnameStage, Flow.Good] using h
  | some f, hz => exact (copyLoop_good cap hcap f w { st with p := 0 } (h.set_p 0) hz).1

theorem extStage_fin (cap : Nat) (hcap : cap < 2 ^ 32) (ext : LPCWSTR)
    (w : List WCHAR) (st : St) (h : Running cap w st) (hz : NoNul ext) :
    Final cap ((w ++ extPart ext).take (cap - 1)) (extStage cap ext st) := by
  have hlt := h.lt_cap
  match ext, hz with
  | none, _ =>
    have htake : (w ++ extPart none).take (cap - 1) = w := by
      simp [extPart]; omega
    rw [htake]
    refine ⟨hlt, ?_, ?_, h.nz, ?_⟩
    · intro i hi
      have hne : i ≠ w.length := by omega
      simp only [extStage, St.store, h.path_eq]
      rw [Function.update_noteq hne]
      exact h.mem_eq i hi
    · simp [extStage, St.store, h.path_eq]
    · intro i hi
      simp only [extStage, St.store, h.path_eq, List.mem_cons] at hi
      rcases hi with hi | hi
      · omega
      · exact h.log_lt i hi
  | some [], hz =>
    have := extLoop_fin cap hcap [] w { st with p := 0 } (h.set_p 0) hz
    simpa [extStage, extPart] using this
  | some (c :: e), hz =>
    have hc : c ≠ 0 := hz c (by simp)
    by_cases hdot : c = dot
    · have := extLoop_fin cap hcap (c :: e) w { st with p := 0 } (h.set_p 0) hz
      simpa [extStage, extPart, hdot] using this
    · obtain ⟨hiff, hgo, hstop⟩ := step_inv ((St.put { st with p := 0 } dot).bump 1)
        dot (h.set_p 0) hcap (by simp [dot]) rfl rfl rfl rfl
      simp only [extStage, extPart, List.headD_cons, hc, hdot, ne_eq, not_false_eq_true,
        and_self, if_true, if_false]
      by_cases hcount : ((St.put { st with p := 0 } dot).bump 1).count = cap
      · have hlen := hiff.1 hcount
        simp only [hcount, if_true]
        have htake : (w ++ dot :: c :: e).take (cap - 1) = w := by
          have : cap - 1 = w.length := by omega
          rw [this]; simp
        rw [htake]
        exact hstop hlen
      · have hlen : w.length + 1 ≠ cap := fun e => hcount (hiff.2 e)
        simp only [hcount, if_false]
        have := extLoop_fin cap hcap (c :: e) (w ++ [dot]) _ (hgo hlen) hz
        simpa only [List.append_assoc, List.singleton_append] using this

/-- The run of `MakePath` for a capacity `cap` that leaves room for the drive
part and its terminator: the call is defined, it leaves the first `cap - 1`
characters of the composition and a terminator, and every store is inside the
buffer. -/
theorem MakePathWith_fin (cap : Nat) (hcap : cap < 2 ^ 32) (mem : Nat → WCHAR)
    (drive dir fname ext : LPCWSTR) (hdrive : (drivePart drive).length < cap)
    (hv : Valid drive dir fname ext) (hne : dir ≠ some []) :
    ∃ st, MakePathWith cap mem drive dir fname ext = some st ∧
      Final cap ((composed drive dir fname ext).take (cap - 1)) st := by
  obtain ⟨hzd, hzr, hzf, hze⟩ := hv
  have h1 := driveStage_inv cap mem drive hzd hdrive
  obtain ⟨r, hr, hgood⟩ := dirStage_good cap hcap dir _ _ h1 hzr hne
  cases r with
  | ret st =>
    refine ⟨st, by simp only [MakePathWith, hr], ?_⟩
    exact ((hgood.ret_append (fnamePart fname)).ret_append (extPart ext)).2
  | fall st =>
    have h2 : Running cap (drivePart drive ++ dirPart dir) st := hgood
    have hgood2 := fnameStage_good cap hcap fname _ st h2 hzf
    cases hf : fnameStage cap fname st with
    | ret st1 =>
      rw [hf] at hgood2
      exact ⟨st1, by simp only [MakePathWith, hr, hf], (hgood2.ret_append (extPart ext)).2⟩
    | fall st1 =>
      rw [hf] at hgood2
      exact ⟨_, by simp only [MakePathWith, hr, hf],
        extStage_fin cap hcap ext _ st1 hgood2 hze⟩

theorem MakePath_fin (mem : Nat → WCHAR) (drive dir fname ext : LPCWSTR)
    (hv : Valid drive dir fname ext) (hne : dir ≠ some []) :
    ∃ st, MakePath mem drive dir fname ext = some st ∧
      Final MAX_PATH ((composed drive dir fname ext).take (MAX_PATH - 1)) st := by
  have hdrive : (drivePart drive).length < MAX_PATH := by
    match drive with
    | none => simp [drivePart, MAX_PATH]
    | some [] => simp [drivePart, MAX_PATH]
    | some (c :: t) => simp [drivePart, MAX_PATH]
  exact MakePathWith_fin MAX_PATH (by simp [MAX_PATH]) mem drive dir fname ext hdrive hv hne

theorem pathOut_eq (mem : Nat → WCHAR) (drive dir fname ext : LPCWSTR)
    (hv : Valid drive dir fname ext) (hne : dir ≠ some []) :
    pathOut mem drive dir fname ext =
      some ((composed drive dir fname ext).take (MAX_PATH - 1)) := by
  obtain ⟨st, hst, hfin⟩ := MakePath_fin mem drive dir fname ext hv hne
  have : MakePathWith MAX_PATH mem drive dir fname ext = some st := hst
  simp only [pathOut, pathOutWith, this, Option.some_bind]
  exact hfin.bufString_eq

theorem noNul_replicate (n : Nat) (c : WCHAR) (hc : c ≠ 0) :
    NoNul (some (List.replicate n c)) := by
  intro d hd
  rw [List.eq_of_mem_replicate hd]
  exact hc

theorem replicate_ne_nil (n : Nat) (c : WCHAR) (hn : 0 < n) :
    some (List.replicate n c) ≠ some [] := by
  intro h
  have h2 := congrArg List.length (Option.some.inj h)
  rw [List.length_replicate, List.length_nil] at h2
  omega

theorem composed_length (drive dir fname ext : LPCWSTR) :
    (composed drive dir fname ext).length =
      (drivePart drive).length + (dirPart dir).length + (fnamePart fname).length
        + (extPart ext).length := by
  simp only [composed, List.length_append]

/-! ## The claims -/

/-- C1: when the composition `C = D ++ R ++ F ++ E` of valid components
(directory null or non-empty) is shorter than `MAX_PATH`, the null-terminated
string that `MakePath` leaves in the buffer is exactly `C`. -/
theorem MakePath_composes (mem : Nat → WCHAR) (drive dir fname ext : LPCWSTR)
    (hv : Valid drive dir fname ext) (hne : dir ≠ some [])
    (hlen : (composed drive dir fname ext).length < MAX_PATH) :
    pathOut mem drive dir fname ext = some (composed drive dir fname ext) := by
  rw [pathOut_eq mem drive dir fname ext hv hne, List.take_of_length_le (by omega)]

theorem MakePath_composes_witness :
    pathOut (fun _ => 65) (some (wstr "C")) (some (wstr "temp")) (some (wstr "report"))
      (some (wstr "log")) = some (wstr "C:temp\\report.log") :=
  (MakePath_composes (fun _ => 65) (some (wstr "C")) (some (wstr "temp"))
    (some (wstr "report")) (some (wstr "log")) (by decide) (by decide) (by decide)).trans
    (by decide)

/-- C2: for valid components of any lengths (directory null or non-empty),
every offset that `MakePath` stores to is below `MAX_PATH`, and on return the
buffer holds a null-terminated string of length at most `MAX_PATH - 1`. -/
theorem MakePath_bounded (mem : Nat → WCHAR) (drive dir fname ext : LPCWSTR)
    (hv : Valid drive dir fname ext) (hne : dir ≠ some []) :
    ∃ st, MakePath mem drive dir fname ext = some st ∧
      (∀ i ∈ st.log, i < MAX_PATH) ∧
      ∃ s, bufString MAX_PATH st.mem = some s ∧ s.length ≤ MAX_PATH - 1 := by
  obtain ⟨st, hst, hfin⟩ := MakePath_fin mem drive dir fname ext hv hne
  refine ⟨st, hst, hfin.log_lt, _, hfin.bufString_eq, ?_⟩
  simp only [List.length_take]
  exact Nat.min_le_left _ _

theorem MakePath_bounded_witness :
    ∃ st, MakePath (fun _ => 65) (some (wstr "C")) (some (List.replicate 300 97))
        (some (List.replicate 300 98)) (some (wstr "log")) = some st ∧
      (∀ i ∈ st.log, i < MAX_PATH) ∧
      ∃ s, bufString MAX_PATH st.mem = some s ∧ s.length ≤ MAX_PATH - 1 :=
  MakePath_bounded (fun _ => 65) (some (wstr "C")) (some (List.replicate 300 97))
    (some (List.replicate 300 98)) (some (wstr "log"))
    ⟨by decide, noNul_replicate 300 97 (by decide), noNul_replicate 300 98 (by decide),
      by decide⟩ (replicate_ne_nil 300 97 (by decide))

/-- C3: when the composition of valid components (directory null or
non-empty) has length at least `MAX_PATH`, whichever stage reaches the limit,
`MakePath` leaves a null-terminated string of length exactly `MAX_PATH - 1`. -/
theorem MakePath_truncated_length (mem : Nat → WCHAR) (drive dir fname ext : LPCWSTR)
    (hv : Valid drive dir fname ext) (hne : dir ≠ some [])
    (hlen : MAX_PATH ≤ (composed drive dir fname ext).length) :
    ∃ s, pathOut mem drive dir fname ext = some s ∧ s.length = MAX_PATH - 1 := by
  refine ⟨_, pathOut_eq mem drive dir fname ext hv hne, ?_⟩
  simp only [List.length_take]
  omega

theorem MakePath_truncated_length_witness :
    (composed none none (some (List.replicate 256 97)) (some (wstr "txt"))).length = MAX_PATH ∧
    ∃ s, pathOut (fun _ => 65) none none (some (List.replicate 256 97)) (some (wstr "txt"))
      = some s ∧ s.length = MAX_PATH - 1 :=
  ⟨by rw [composed_length, fnamePart, List.length_replicate]; decide,
   MakePath_truncated_length (fun _ => 65) none none (some (List.replicate 256 97))
    (some (wstr "txt")) ⟨by decide, by decide, noNul_replicate 256 97 (by decide), by decide⟩
    (by decide)
    (by rw [composed_length, fnamePart, List.length_replicate]; decide)⟩

/-- C4: for valid components (directory null or non-empty) the string that
`MakePath` leaves is the first `min (length C) (MAX_PATH - 1)` characters of
the composition `C`, hence a prefix of `C`. -/
theorem MakePath_prefix (mem : Nat → WCHAR) (drive dir fname ext : LPCWSTR)
    (hv : Valid drive dir fname ext) (hne : dir ≠ some []) :
    ∃ s, pathOut mem drive dir fname ext = some s ∧
      s = (composed drive dir fname ext).take
        (min (composed drive dir fname ext).length (MAX_PATH - 1)) ∧
      s <+: composed drive dir fname ext := by
  refine ⟨_, pathOut_eq mem drive dir fname ext hv hne, ?_, List.take_prefix _ _⟩
  by_cases h : (composed drive dir fname ext).length ≤ MAX_PATH - 1
  · rw [Nat.min_eq_left h, List.take_length, List.take_of_length_le h]
  · rw [Nat.min_eq_right (by omega)]

theorem MakePath_prefix_witness :
    ∃ s, pathOut (fun _ => 65) (some (wstr "C")) (some (List.replicate 300 97))
        (some (wstr "report")) (some (wstr "log")) = some s ∧
      s = (composed (some (wstr "C")) (some (List.replicate 300 97))
          (some (wstr "report")) (some (wstr "log"))).take
        (min (composed (some (wstr "C")) (some (List.replicate 300 97))
          (some (wstr "report")) (some (wstr "log"))).length (MAX_PATH - 1)) ∧
      s <+: composed (some (wstr "C")) (some (List.replicate 300 97))
          (some (wstr "report")) (some (wstr "log")) :=
  MakePath_prefix (fun _ => 65) (some (wstr "C")) (some (List.replicate 300 97))
    (some (wstr "report")) (some (wstr "log"))
    ⟨by decide, noNul_replicate 300 97 (by decide), by decide, by decide⟩
    (replicate_ne_nil 300 97 (by decide))

theorem valid_setDir {drive dir fname ext : LPCWSTR} (hv : Valid drive dir fname ext)
    (dir1 : LPCWSTR) (h : NoNul dir1) : Valid drive dir1 fname ext :=
  ⟨hv.1, h, hv.2.2.1, hv.2.2.2⟩

theorem noNul_snoc (d : List WCHAR) (c : WCHAR) (hd : NoNul (some d)) (hc : c ≠ 0) :
    NoNul (some (d ++ [c])) := by
  intro x hx
  rcases List.mem_append.1 hx with hx | hx
  · exact hd x hx
  · simp at hx; subst hx; exact hc

theorem dirPart_snoc_backslash (d : List WCHAR) (h : d.getLast?.any isSep = false) :
    dirPart (some (d ++ [backslash])) = dirPart (some d) := by
  simp [dirPart, h, isSep]

/-- C5: for a non-empty directory `d`: if its last character is `'/'` or
`'\\'` the directory is copied verbatim with no separator after it; otherwise
it is copied verbatim followed by exactly one backslash, and the call leaves
the same string as the call with the directory `d ++ "\\"`. -/
theorem MakePath_dir_separator (mem : Nat → WCHAR) (drive fname ext : LPCWSTR)
    (d : List WCHAR) (hv : Valid drive (some d) fname ext) (hd : d ≠ []) :
    (d.getLast?.any isSep = true →
      pathOut mem drive (some d) fname ext =
        some ((drivePart drive ++ d ++ fnamePart fname ++ extPart ext).take (MAX_PATH - 1))) ∧
    (d.getLast?.any isSep = false →
      pathOut mem drive (some d) fname ext =
        some ((drivePart drive ++ (d ++ [backslash]) ++ fnamePart fname ++ extPart ext).take
          (MAX_PATH - 1)) ∧
      pathOut mem drive (some d) fname ext =
        pathOut mem drive (some (d ++ [backslash])) fname ext) := by
  have hne : some d ≠ some [] := fun e => hd (Option.some.inj e)
  have hout := pathOut_eq mem drive (some d) fname ext hv hne
  refine ⟨?_, ?_⟩
  · intro h
    rw [hout]
    simp [composed, dirPart, h]
  · intro h
    have hv2 : Valid drive (some (d ++ [backslash])) fname ext :=
      valid_setDir hv _ (noNul_snoc d backslash hv.2.1 (by simp [backslash]))
    have hne2 : some (d ++ [backslash]) ≠ some [] := by simp
    refine ⟨?_, ?_⟩
    · rw [hout]
      simp [composed, dirPart, h]
    · rw [hout, pathOut_eq mem drive (some (d ++ [backslash])) fname ext hv2 hne2]
      simp only [composed, dirPart_snoc_backslash d h]

theorem MakePath_dir_separator_witness :
    pathOut (fun _ => 65) none (some (wstr "/var/data/")) (some (wstr "x"))
      (some (wstr ".bin")) = some (wstr "/var/data/x.bin") :=
  ((MakePath_dir_separator (fun _ => 65) none (some (wstr "x")) (some (wstr ".bin"))
    (wstr "/var/data/") (by decide) (by decide)).1 (by decide)).trans (by decide)

/-- C6: for valid components (directory null or non-empty) and a non-empty
extension `e` that does not start with a dot, the calls with the extensions
`e` and `"." ++ e` leave the same string, truncated or not. -/
theorem MakePath_ext_dot_idempotent (mem : Nat → WCHAR) (drive dir fname : LPCWSTR)
    (e : List WCHAR) (hv : Valid drive dir fname (some e)) (hne : dir ≠ some [])
    (he : e ≠ []) (hdot : e.head? ≠ some dot) :
    ∃ s, pathOut mem drive dir fname (some e) = some s ∧
      pathOut mem drive dir fname (some (dot :: e)) = some s := by
  have hv2 : Valid drive dir fname (some (dot :: e)) := by
    refine ⟨hv.1, hv.2.1, hv.2.2.1, ?_⟩
    intro x hx
    rcases List.mem_cons.1 hx with hx | hx
    · rw [hx]; simp [dot]
    · exact hv.2.2.2 x hx
  refine ⟨_, pathOut_eq mem drive dir fname (some e) hv hne, ?_⟩
  rw [pathOut_eq mem drive dir fname (some (dot :: e)) hv2 hne]
  match e, he, hdot with
  | c :: t, _, hdot =>
    have hc : c ≠ dot := by simpa using hdot
    simp [composed, extPart, hc]

theorem MakePath_ext_dot_idempotent_witness :
    ∃ s, pathOut (fun _ => 65) (some (wstr "C")) (some (wstr "temp")) (some (wstr "report"))
        (some (wstr "txt")) = some s ∧
      pathOut (fun _ => 65) (some (wstr "C")) (some (wstr "temp")) (some (wstr "report"))
        (some (wstr ".txt")) = some s :=
  MakePath_ext_dot_idempotent (fun _ => 65) (some (wstr "C")) (some (wstr "temp"))
    (some (wstr "report")) (wstr "txt") (by decide) (by decide) (by decide) (by decide)

/-- C8 fails for a directory that ends in two separators: the directory
`"a//"` with the file name `"x"` gives `"a//x"`, where two separators stand
before the file name. -/
theorem MakePath_single_separator_counterexample :
    pathOut (fun _ => 65) none (some (wstr "a//")) (some (wstr "x")) none
      = some (wstr "a//x") ∧
    ¬ SingleSeparator (fun _ => 65) none (wstr "a//") (some (wstr "x")) none := by
  have hout : pathOut (fun _ => 65) none (some (wstr "a//")) (some (wstr "x")) none
      = some (wstr "a//x") := by decide
  refine ⟨hout, ?_⟩
  rintro ⟨r, hr, hone⟩
  rw [hout] at hr
  have hsplit : wstr "a//x" = wstr "a//" ++ wstr "x" := by decide
  have hr2 : wstr "a//" ++ wstr "x" = r ++ wstr "x" := by
    rw [← hsplit, Option.some.inj hr]
    simp only [drivePart, fnamePart, extPart, List.nil_append, List.append_nil]
  have hr3 : r = wstr "a//" := (List.append_cancel_right hr2).symm
  rw [hr3] at hone
  exact absurd hone (by decide)

/-- C8, amended: for a non-empty directory `d` that does not itself end in
two separators, the untruncated output is `D ++ r ++ F ++ E` where the
directory portion `r` is `d` with its separator ensured, and `r` ends in a
separator whose predecessor is not a separator. -/
theorem MakePath_single_separator (mem : Nat → WCHAR) (drive fname ext : LPCWSTR)
    (d : List WCHAR) (hv : Valid drive (some d) fname ext) (hd : d ≠ [])
    (hlen : (composed drive (some d) fname ext).length < MAX_PATH)
    (htwo : EndsInTwoSeps d = false) :
    SingleSeparator mem drive d fname ext ∧ EndsInOneSep (dirPart (some d)) = true := by
  have hne : some d ≠ some [] := fun e => hd (Option.some.inj e)
  have hone : EndsInOneSep (dirPart (some d)) = true := by
    cases hlast : d.getLast?.any isSep with
    | true =>
      have h2 : d.dropLast.getLast?.any isSep = false := by
        simpa [EndsInTwoSeps, hlast] using htwo
      simp [dirPart, EndsInOneSep, hlast, h2]
    | false =>
      simp [dirPart, EndsInOneSep, hlast, isSep]
  refine ⟨⟨dirPart (some d), ?_, hone⟩, hone⟩
  rw [pathOut_eq mem drive (some d) fname ext hv hne, List.take_of_length_le (by omega)]
  rfl

theorem MakePath_single_separator_witness :
    SingleSeparator (fun _ => 65) none (wstr "a/b/c") (some (wstr "x")) none ∧
    SingleSeparator (fun _ => 65) none (wstr "a/b/c/") (some (wstr "x")) none ∧
    SingleSeparator (fun _ => 65) none (wstr "a\\b\\c\\") (some (wstr "x")) none :=
  ⟨(MakePath_single_separator (fun _ => 65) none (some (wstr "x")) none (wstr "a/b/c")
      (by decide) (by decide) (by decide) (by decide)).1,
   (MakePath_single_separator (fun _ => 65) none (some (wstr "x")) none (wstr "a/b/c/")
      (by decide) (by decide) (by decide) (by decide)).1,
   (MakePath_single_separator (fun _ => 65) none (some (wstr "x")) none (wstr "a\\b\\c\\")
      (by decide) (by decide) (by decide) (by decide)).1⟩

/-- C9 fails on the code: with a present but empty directory the copy loop
copies nothing, `p` still points at the start of the directory, and the
look-back `*(p-1)` reads the character before the directory text; the call is
not defined, whatever the other components are. -/
theorem MakePath_empty_dir_reads_before_text (mem : Nat → WCHAR)
    (drive fname ext : LPCWSTR) :
    lookBack [] { (driveStage drive
        { mem := mem, path := 0, count := 0, p := 0, log := [] }) with p := 0 } = none ∧
    (MakePath mem drive (some []) fname ext).isNone = true ∧
    pathOut mem drive (some []) fname ext = none := by
  have h : MakePathWith MAX_PATH mem drive (some []) fname ext = none := by
    simp [MakePathWith, dirStage, copyLoop, lookBack]
  refine ⟨by simp [lookBack], by simp [MakePath, h], by simp [pathOut, pathOutWith, h]⟩

/-- C10: for valid components (directory null or non-empty), an empty drive,
file name or extension leaves the same string as a null one; an empty drive
adds no colon and an empty extension adds no dot. -/
theorem MakePath_empty_as_null (mem : Nat → WCHAR) (drive dir fname ext : LPCWSTR)
    (hv : Valid drive dir fname ext) (hne : dir ≠ some []) :
    (∃ s, pathOut mem (some []) dir fname ext = some s ∧
      pathOut mem none dir fname ext = some s ∧
      s = (dirPart dir ++ fnamePart fname ++ extPart ext).take (MAX_PATH - 1)) ∧
    (∃ s, pathOut mem drive dir (some []) ext = some s ∧
      pathOut mem drive dir none ext = some s) ∧
    (∃ s, pathOut mem drive dir fname (some []) = some s ∧
      pathOut mem drive dir fname none = some s ∧
      s = (drivePart drive ++ dirPart dir ++ fnamePart fname).take (MAX_PATH - 1)) := by
  obtain ⟨hzd, hzr, hzf, hze⟩ := hv
  have hnil : NoNul (some []) := by simp [NoNul]
  have hnone : NoNul none := trivial
  refine ⟨⟨_, pathOut_eq mem (some []) dir fname ext ⟨hnil, hzr, hzf, hze⟩ hne, ?_, ?_⟩,
    ⟨_, pathOut_eq mem drive dir (some []) ext ⟨hzd, hzr, hnil, hze⟩ hne, ?_⟩,
    ⟨_, pathOut_eq mem drive dir fname (some []) ⟨hzd, hzr, hzf, hnil⟩ hne, ?_, ?_⟩⟩
  · rw [pathOut_eq mem none dir fname ext ⟨hnone, hzr, hzf, hze⟩ hne]
    rfl
  · simp [composed, drivePart]
  · rw [pathOut_eq mem drive dir none ext ⟨hzd, hzr, hnone, hze⟩ hne]
    rfl
  · rw [pathOut_eq mem drive dir fname none ⟨hzd, hzr, hzf, hnone⟩ hne]
    rfl
  · simp [composed, extPart]

theorem MakePath_empty_as_null_witness :
    (∃ s, pathOut (fun _ => 65) (some []) (some (wstr "temp")) (some (wstr "report"))
        (some (wstr "log")) = some s ∧
      pathOut (fun _ => 65) none (some (wstr "temp")) (some (wstr "report"))
        (some (wstr "log")) = some s ∧
      s = (dirPart (some (wstr "temp")) ++ fnamePart (some (wstr "report")) ++
        extPart (some (wstr "log"))).take (MAX_PATH - 1)) ∧
    (∃ s, pathOut (fun _ => 65) (some (wstr "C")) (some (wstr "temp")) (some [])
        (some (wstr "log")) = some s ∧
      pathOut (fun _ => 65) (some (wstr "C")) (some (wstr "temp")) none
        (some (wstr "log")) = some s) ∧
    (∃ s, pathOut (fun _ => 65) (some (wstr "C")) (some (wstr "temp")) (some (wstr "report"))
        (some []) = some s ∧
      pathOut (fun _ => 65) (some (wstr "C")) (some (wstr "temp")) (some (wstr "report"))
        none = some s ∧
      s = (drivePart (some (wstr "C")) ++ dirPart (some (wstr "temp")) ++
        fnamePart (some (wstr "report"))).take (MAX_PATH - 1)) :=
  MakePath_empty_as_null (fun _ => 65) (some (wstr "C")) (some (wstr "temp"))
    (some (wstr "report")) (some (wstr "log")) (by decide) (by decide)

/-- C11: with drive, directory, file name and extension all null, `MakePath`
makes one store, the terminator at offset 0, and leaves the empty string,
whatever the buffer held before. -/
theorem MakePath_all_absent (mem : Nat → WCHAR) :
    ∃ st, MakePath mem none none none none = some st ∧
      st.log = [0] ∧ st.mem = Function.update mem 0 0 ∧
      pathOut mem none none none none = some [] := by
  refine ⟨_, rfl, rfl, rfl, ?_⟩
  rw [pathOut_eq mem none none none none (by decide) (by decide)]
  rfl

theorem GetProcessExePath_cached (env : Platform) (t : List WCHAR) (out : LPCWSTR) :
    GetProcessExePath env (some t) out =
      { hr := S_OK, g_wszProcessExePath := some t, out := some t, wrote := true,
        queried := false } := by
  simp [GetProcessExePath]

theorem runCalls_cached (t : List WCHAR) :
    ∀ (calls : List (Platform × LPCWSTR)), ∀ r ∈ runCalls calls (some t),
      r = { hr := S_OK, g_wszProcessExePath := some t, out := some t, wrote := true,
            queried := false } := by
  intro calls
  induction calls with
  | nil => intro r hr; simp [runCalls] at hr
  | cons c rest ih =>
    obtain ⟨env, out⟩ := c
    intro r hr
    simp only [runCalls, GetProcessExePath_cached, List.mem_cons] at hr
    rcases hr with hr | hr
    · exact hr
    · exact ih r hr

/-- C12 (sequential model): after a call of `GetProcessExePath` that
succeeded, the cache is non-null, and every later call, whatever the platform
would do, returns `S_OK` and the cached value, leaves the cache as it is and
does not call the platform query. -/
theorem GetProcessExePath_sticky (env : Platform) (g out : LPCWSTR) (hs : env.Sound)
    (hok : SUCCEEDED (GetProcessExePath env g out).hr) :
    (GetProcessExePath env g out).g_wszProcessExePath ≠ none ∧
    ∀ (calls : List (Platform × LPCWSTR)),
      ∀ r ∈ runCalls calls (GetProcessExePath env g out).g_wszProcessExePath,
        r.hr = S_OK ∧ r.out = (GetProcessExePath env g out).g_wszProcessExePath ∧
        r.g_wszProcessExePath = (GetProcessExePath env g out).g_wszProcessExePath ∧
        r.wrote = true ∧ r.queried = false := by
  have hne : (GetProcessExePath env g out).g_wszProcessExePath ≠ none := by
    obtain ⟨h1, h2⟩ := hs
    unfold FAILED at h1 h2
    unfold SUCCEEDED at hok
    cases g with
    | some t => simp [GetProcessExePath]
    | none =>
      by_cases ha : env.newArray = false
      · have hhr : (GetProcessExePath env none out).hr = env.hrNull := by
          simp [GetProcessExePath, ha]
        rw [hhr] at hok
        exact absurd hok (not_le.mpr h1)
      · by_cases hc : env.cchProcName = 0
        · have hhr : (GetProcessExePath env none out).hr = env.hrLastError := by
            simp [GetProcessExePath, ha, hc]
          rw [hhr] at hok
          exact absurd hok (not_le.mpr h2)
        · simp [GetProcessExePath, ha, hc, InterlockedCompareExchangeT]
  refine ⟨hne, ?_⟩
  cases ht : (GetProcessExePath env g out).g_wszProcessExePath with
  | none => exact absurd ht hne
  | some t =>
    intro calls r hr
    rw [runCalls_cached t calls r hr]
    exact ⟨rfl, rfl, rfl, rfl, rfl⟩

theorem GetProcessExePath_sticky_witness :
    (GetProcessExePath
      { newArray := true, cchProcName := 10, procName := wstr "C:\\app.exe",
        hrNull := -2147024882, hrLastError := -2147024891 } none none).g_wszProcessExePath
      ≠ none ∧
    ∀ r ∈ runCalls
        [({ newArray := true, cchProcName := 0, procName := [],
            hrNull := -2147024882, hrLastError := -2147024891 }, none),
         ({ newArray := false, cchProcName := 3, procName := wstr "D:x",
            hrNull := -2147024882, hrLastError := -2147024891 }, some (wstr "old"))]
        (GetProcessExePath
          { newArray := true, cchProcName := 10, procName := wstr "C:\\app.exe",
            hrNull := -2147024882, hrLastError := -2147024891 } none none).g_wszProcessExePath,
      r.hr = S_OK ∧
      r.out = (GetProcessExePath
          { newArray := true, cchProcName := 10, procName := wstr "C:\\app.exe",
            hrNull := -2147024882, hrLastError := -2147024891 } none none).g_wszProcessExePath ∧
      r.g_wszProcessExePath = (GetProcessExePath
          { newArray := true, cchProcName := 10, procName := wstr "C:\\app.exe",
            hrNull := -2147024882, hrLastError := -2147024891 } none none).g_wszProcessExePath ∧
      r.wrote = true ∧ r.queried = false :=
  ⟨(GetProcessExePath_sticky
      { newArray := true, cchProcName := 10, procName := wstr "C:\\app.exe",
        hrNull := -2147024882, hrLastError := -2147024891 } none none
      (by decide) (by decide)).1,
   (GetProcessExePath_sticky
      { newArray := true, cchProcName := 10, procName := wstr "C:\\app.exe",
        hrNull := -2147024882, hrLastError := -2147024891 } none none
      (by decide) (by decide)).2 _⟩

/-- C13 (sequential model): with an empty cache, when the allocation fails or
the platform query returns length 0, `GetProcessExePath` returns a failure
result, leaves the cache null and does not assign the caller's output; a
following call whose allocation and query succeed calls the query, returns
`S_OK`, and caches and hands out the path found. -/
theorem GetProcessExePath_failure_not_cached (env : Platform) (out : LPCWSTR)
    (hs : env.Sound) (hfail : env.newArray = false ∨ env.cchProcName = 0) :
    FAILED (GetProcessExePath env none out).hr ∧
    (GetProcessExePath env none out).g_wszProcessExePath = none ∧
    (GetProcessExePath env none out).wrote = false ∧
    (GetProcessExePath env none out).out = out ∧
    ∀ (env2 : Platform) (out2 : LPCWSTR), env2.newArray = true → env2.cchProcName ≠ 0 →
      (GetProcessExePath env2 (GetProcessExePath env none out).g_wszProcessExePath
        out2).queried = true ∧
      (GetProcessExePath env2 (GetProcessExePath env none out).g_wszProcessExePath
        out2).hr = S_OK ∧
      (GetProcessExePath env2 (GetProcessExePath env none out).g_wszProcessExePath
        out2).g_wszProcessExePath = some env2.procName ∧
      (GetProcessExePath env2 (GetProcessExePath env none out).g_wszProcessExePath
        out2).out = some env2.procName := by
  obtain ⟨h1, h2⟩ := hs
  have hr : GetProcessExePath env none out =
      { hr := (if env.newArray = false then env.hrNull else env.hrLastError),
        g_wszProcessExePath := none, out := out, wrote := false,
        queried := (if env.newArray = false then false else true) } := by
    by_cases ha : env.newArray = false
    · simp [GetProcessExePath, ha]
    · have hc : env.cchProcName = 0 := hfail.resolve_left ha
      simp [GetProcessExePath, ha, hc]
  rw [hr]
  refine ⟨?_, rfl, rfl, rfl, ?_⟩
  · show FAILED (if env.newArray = false then env.hrNull else env.hrLastError)
    split
    · exact h1
    · exact h2
  · intro env2 out2 ha hc
    simp [GetProcessExePath, ha, hc, InterlockedCompareExchangeT]

theorem GetProcessExePath_failure_not_cached_witness :
    GetProcessExePath
      { newArray := true, cchProcName := 0, procName := [],
        hrNull := -2147024882, hrLastError := -2147024891 } none (some (wstr "old"))
      = { hr := -2147024891, g_wszProcessExePath := none, out := some (wstr "old"),
          wrote := false, queried := true } ∧
    (GetProcessExePath
      { newArray := true, cchProcName := 10, procName := wstr "C:\\app.exe",
        hrNull := -2147024882, hrLastError := -2147024891 }
      (GetProcessExePath
        { newArray := true, cchProcName := 0, procName := [],
          hrNull := -2147024882, hrLastError := -2147024891 } none
        (some (wstr "old"))).g_wszProcessExePath none).out = some (wstr "C:\\app.exe") :=
  ⟨by decide,
   ((GetProcessExePath_failure_not_cached
      { newArray := true, cchProcName := 0, procName := [],
        hrNull := -2147024882, hrLastError := -2147024891 } (some (wstr "old"))
      (by decide) (Or.inr rfl)).2.2.2.2
      { newArray := true, cchProcName := 10, procName := wstr "C:\\app.exe",
        hrNull := -2147024882, hrLastError := -2147024891 } none rfl (by decide)).2.2.2⟩

theorem drivePart_lt_MAX_PATH (drive : LPCWSTR) : (drivePart drive).length < MAX_PATH := by
  match drive with
  | none => simp [drivePart, MAX_PATH]
  | some [] => simp [drivePart, MAX_PATH]
  | some (c :: t) => simp [drivePart, MAX_PATH]

theorem dir_length_le (drive : LPCWSTR) (d : List WCHAR) :
    d.length ≤ (drivePart drive ++ dirPart (some d)).length := by
  rw [List.length_append, dirPart]
  split
  · omega
  · rw [List.length_append]; omega

theorem fname_length_le (drive dir : LPCWSTR) (f : List WCHAR) :
    f.length ≤ (drivePart drive ++ dirPart dir ++ fnamePart (some f)).length := by
  rw [List.length_append, fnamePart]
  omega

/-- When the drive and directory parts reach the capacity, the directory
stage returns, with the buffer holding their first `cap - 1` characters. -/
theorem dirStage_returns (cap : Nat) (hcap : cap < 2 ^ 32) (mem : Nat → WCHAR)
    (drive dir : LPCWSTR) (hdrive : (drivePart drive).length < cap)
    (hzd : NoNul drive) (hzr : NoNul dir) (hne : dir ≠ some [])
    (hlen : cap ≤ (drivePart drive ++ dirPart dir).length) :
    ∃ st, dirStage cap dir
        (driveStage drive { mem := mem, path := 0, count := 0, p := 0, log := [] })
        = some (Flow.ret st) ∧
      Final cap ((drivePart drive ++ dirPart dir).take (cap - 1)) st := by
  have h1 := driveStage_inv cap mem drive hzd hdrive
  obtain ⟨r, hr, hgood⟩ := dirStage_good cap hcap dir _ _ h1 hzr hne
  cases r with
  | ret st => exact ⟨st, hr, hgood.2⟩
  | fall st =>
    have h2 : Running cap (drivePart drive ++ dirPart dir) st := hgood
    exact absurd h2.lt_cap (by omega)

/-- When the drive, directory and file name parts reach the capacity, the
call returns before the extension stage, whatever the extension is. -/
theorem MakePathWith_returns_before_ext (cap : Nat) (hcap : cap < 2 ^ 32)
    (mem : Nat → WCHAR) (drive dir fname : LPCWSTR)
    (hdrive : (drivePart drive).length < cap)
    (hzd : NoNul drive) (hzr : NoNul dir) (hzf : NoNul fname) (hne : dir ≠ some [])
    (hlen : cap ≤ (drivePart drive ++ dirPart dir ++ fnamePart fname).length) :
    ∃ st, (∀ ext, MakePathWith cap mem drive dir fname ext = some st) ∧
      Final cap ((drivePart drive ++ dirPart dir ++ fnamePart fname).take (cap - 1)) st := by
  have h1 := driveStage_inv cap mem drive hzd hdrive
  obtain ⟨r, hr, hgood⟩ := dirStage_good cap hcap dir _ _ h1 hzr hne
  cases r with
  | ret st =>
    exact ⟨st, fun ext => by simp only [MakePathWith, hr],
      (hgood.ret_append (fnamePart fname)).2⟩
  | fall st =>
    have h2 : Running cap (drivePart drive ++ dirPart dir) st := hgood
    have hgood2 := fnameStage_good cap hcap fname _ st h2 hzf
    cases hf : fnameStage cap fname st with
    | ret st1 =>
      rw [hf] at hgood2
      exact ⟨st1, fun ext => by simp only [MakePathWith, hr, hf], hgood2.2⟩
    | fall st1 =>
      rw [hf] at hgood2
      have h3 : Running cap (drivePart drive ++ dirPart dir ++ fnamePart fname) st1 := hgood2
      exact absurd h3.lt_cap (by omega)

/-- C14: for a valid drive and directory (null or non-empty): when the drive
and directory parts have length at least `MAX_PATH`, the call ends in the
same state and leaves the same string for every two choices of file name and
extension; when the drive, directory and valid file name parts have length at
least `MAX_PATH`, the same holds for every two choices of extension. -/
theorem MakePath_truncation_abandons (mem : Nat → WCHAR) (drive dir : LPCWSTR)
    (hzd : NoNul drive) (hzr : NoNul dir) (hne : dir ≠ some []) :
    (MAX_PATH ≤ (drivePart drive ++ dirPart dir).length →
      ∀ f1 e1 f2 e2 : LPCWSTR,
        MakePath mem drive dir f1 e1 = MakePath mem drive dir f2 e2 ∧
        ∃ s, pathOut mem drive dir f1 e1 = some s ∧ pathOut mem drive dir f2 e2 = some s) ∧
    (∀ fname : LPCWSTR, NoNul fname →
      MAX_PATH ≤ (drivePart drive ++ dirPart dir ++ fnamePart fname).length →
      ∀ e1 e2 : LPCWSTR,
        MakePath mem drive dir fname e1 = MakePath mem drive dir fname e2 ∧
        ∃ s, pathOut mem drive dir fname e1 = some s ∧
          pathOut mem drive dir fname e2 = some s) := by
  have hcap : MAX_PATH < 2 ^ 32 := by simp [MAX_PATH]
  refine ⟨?_, ?_⟩
  · intro hlen f1 e1 f2 e2
    obtain ⟨st, hst, hfin⟩ := dirStage_returns MAX_PATH hcap mem drive dir
      (drivePart_lt_MAX_PATH drive) hzd hzr hne hlen
    have hall : ∀ f e, MakePathWith MAX_PATH mem drive dir f e = some st := by
      intro f e
      simp only [MakePathWith, hst]
    refine ⟨by simp only [MakePath, hall],
      (drivePart drive ++ dirPart dir).take (MAX_PATH - 1), ?_, ?_⟩
    · simp only [pathOut, pathOutWith, hall, Option.some_bind]
      exact hfin.bufString_eq
    · simp only [pathOut, pathOutWith, hall, Option.some_bind]
      exact hfin.bufString_eq
  · intro fname hzf hlen e1 e2
    obtain ⟨st, hall, hfin⟩ := MakePathWith_returns_before_ext MAX_PATH hcap mem drive dir
      fname (drivePart_lt_MAX_PATH drive) hzd hzr hzf hne hlen
    refine ⟨by simp only [MakePath, hall],
      (drivePart drive ++ dirPart dir ++ fnamePart fname).take (MAX_PATH - 1), ?_, ?_⟩
    · simp only [pathOut, pathOutWith, hall, Option.some_bind]
      exact hfin.bufString_eq
    · simp only [pathOut, pathOutWith, hall, Option.some_bind]
      exact hfin.bufString_eq

theorem MakePath_truncation_abandons_witness :
    (MakePath (fun _ => 65) (some (wstr "C")) (some (List.replicate 300 97))
        (some (wstr "report")) (some (wstr "log"))
      = MakePath (fun _ => 65) (some (wstr "C")) (some (List.replicate 300 97)) none none) ∧
    (MakePath (fun _ => 65) (some (wstr "C")) (some (wstr "temp"))
        (some (List.replicate 300 98)) (some (wstr "log"))
      = MakePath (fun _ => 65) (some (wstr "C")) (some (wstr "temp"))
        (some (List.replicate 300 98)) none) :=
  ⟨((MakePath_truncation_abandons (fun _ => 65) (some (wstr "C"))
      (some (List.replicate 300 97)) (by decide) (noNul_replicate 300 97 (by decide))
      (replicate_ne_nil 300 97 (by decide))).1
      (Nat.le_trans (by rw [List.length_replicate]; decide) (dir_length_le _ _))
      (some (wstr "report")) (some (wstr "log")) none none).1,
   ((MakePath_truncation_abandons (fun _ => 65) (some (wstr "C"))
      (some (wstr "temp")) (by decide) (by decide) (by decide)).2
      (some (List.replicate 300 98)) (noNul_replicate 300 98 (by decide))
      (Nat.le_trans (by rw [List.length_replicate]; decide) (fname_length_le _ _ _))
      (some (wstr "log")) none).1⟩

/-- C15 fails when the capacity is 2 and a drive is given: the drive stage
stores the letter and the colon at offsets 0 and 1 without a check, the
terminator goes to offset 2, outside the buffer, and the two characters of
the buffer hold no terminator. -/
theorem MakePathWith_capacity_two_counterexample :
    (MakePathWith 2 (fun _ => 65) (some (wstr "C")) none none none).map St.log
      = some [2, 1, 0] ∧
    2 ≤ (composed (some (wstr "C")) none none none).length ∧
    pathOutWith 2 (fun _ => 65) (some (wstr "C")) none none none = none ∧
    ¬ WithinCapacity 2 (fun _ => 65) (some (wstr "C")) none none none := by
  have hl : (MakePathWith 2 (fun _ => 65) (some (wstr "C")) none none none).map St.log
      = some [2, 1, 0] := by decide
  refine ⟨hl, by decide, by decide, ?_⟩
  rintro ⟨st, hst, hlog, _⟩
  rw [hst] at hl
  have hl2 : st.log = [2, 1, 0] := by simpa using hl
  have := hlog 2 (by rw [hl2]; simp)
  omega

/-- C15, amended: for a capacity below `2 ^ 32` that leaves room for the drive
part and a terminator (at least 3 when a drive is given) and valid components
(directory null or non-empty), `MakePath` stores to no offset from the
capacity on, and leaves a string of length exactly `cap - 1` when the
composition has length at least `cap`. -/
theorem MakePathWith_within_capacity (cap : Nat) (hcap : cap < 2 ^ 32) (mem : Nat → WCHAR)
    (drive dir fname ext : LPCWSTR) (hdrive : (drivePart drive).length < cap)
    (hv : Valid drive dir fname ext) (hne : dir ≠ some []) :
    WithinCapacity cap mem drive dir fname ext := by
  obtain ⟨st, hst, hfin⟩ := MakePathWith_fin cap hcap mem drive dir fname ext hdrive hv hne
  refine ⟨st, hst, hfin.log_lt, ?_⟩
  intro hlen
  refine ⟨_, hfin.bufString_eq, ?_⟩
  simp only [List.length_take]
  omega

theorem MakePathWith_within_capacity_witness :
    3 ≤ (composed (some (wstr "C")) none (some (wstr "x")) none).length ∧
    WithinCapacity 3 (fun _ => 65) (some (wstr "C")) none (some (wstr "x")) none :=
  ⟨by decide,
   MakePathWith_within_capacity 3 (by decide) (fun _ => 65) (some (wstr "C")) none
    (some (wstr "x")) none (by decide) (by decide) (by decide)⟩

theorem getD_take_lt (w : List WCHAR) (n i : Nat) (hi : i < n) :
    (w.take n).getD i 0 = w.getD i 0 := by
  simp [List.getD_eq_getElem?_getD, List.getElem?_take_of_lt hi]

/-- The reference assembler at the limit: the count has reached the capacity,
it backs up and leaves the first `cap - 1` characters. -/
theorem RefRunning.truncate_fin {cap : Nat} {w : List WCHAR} {st : St}
    (h : RefRunning cap w st) (hpos : 0 < cap) (hfull : cap ≤ st.count) :
    Final cap (w.take (cap - 1)) st.truncate := by
  have hlen : w.length = cap := by
    have := h.le_cap
    have := h.count_eq
    omega
  have htl : (w.take (cap - 1)).length = cap - 1 := by
    rw [List.length_take]; omega
  refine ⟨by omega, ?_, ?_, ?_, ?_⟩
  · intro i hi
    have hi2 : i < cap - 1 := by omega
    have hne : i ≠ cap - 1 := by omega
    simp only [St.truncate, St.store, h.path_eq, hlen]
    rw [Function.update_noteq hne, getD_take_lt w (cap - 1) i hi2]
    exact h.mem_eq i (by omega)
  · rw [htl]
    simp [St.truncate, St.store, h.path_eq, hlen]
  · intro c hc
    exact h.nz c (List.mem_of_mem_take hc)
  · intro i hi
    simp only [St.truncate, St.store, h.path_eq, hlen, List.mem_cons] at hi
    rcases hi with hi | hi
    · omega
    · exact h.log_lt i hi

theorem refLoop_fin (cap : Nat) (hpos : 0 < cap) (s : List WCHAR) :
    ∀ (w : List WCHAR) (st : St), RefRunning cap w st → (∀ c ∈ s, c ≠ 0) →
      Final cap ((w ++ s).take (cap - 1)) (refLoop cap s st) := by
  induction s with
  | nil =>
    intro w st h _
    simp only [refLoop, List.append_nil]
    by_cases hfull : cap ≤ st.count
    · rw [if_pos hfull]
      exact h.truncate_fin hpos hfull
    · rw [if_neg hfull]
      have hlt : w.length < cap := by
        have := h.count_eq
        omega
      rw [List.take_of_length_le (by omega)]
      refine ⟨hlt, ?_, ?_, h.nz, ?_⟩
      · intro i hi
        have hne : i ≠ w.length := by omega
        simp only [St.store, h.path_eq]
        rw [Function.update_noteq hne]
        exact h.mem_eq i hi
      · simp [St.store, h.path_eq]
      · intro i hi
        simp only [St.store, h.path_eq, List.mem_cons] at hi
        rcases hi with hi | hi
        · omega
        · exact h.log_lt i hi
  | cons c s ih =>
    intro w st h hz
    have hc : c ≠ 0 := hz c (by simp)
    have hs : ∀ d ∈ s, d ≠ 0 := fun d hd => hz d (by simp [hd])
    simp only [refLoop]
    by_cases hfull : cap ≤ st.count
    · rw [if_pos hfull]
      have hlen : cap - 1 ≤ w.length := by
        have := h.count_eq
        omega
      rw [List.take_append_of_le_length hlen]
      exact h.truncate_fin hpos hfull
    · rw [if_neg hfull]
      have hlt : w.length < cap := by
        have := h.count_eq
        omega
      have hnext : RefRunning cap (w ++ [c]) { st.put c with count := st.count + 1 } := by
        refine ⟨by simp [St.put, St.store, h.path_eq], by simp [h.count_eq],
          by simp; omega, ?_, ?_, ?_⟩
        · intro i hi
          simp only [St.put, St.store, h.path_eq]
          by_cases hiw : i = w.length
          · subst hiw
            simp [getD_snoc_eq]
          · have hi2 : i < w.length := by
              simp at hi; omega
            rw [Function.update_noteq hiw, getD_snoc_lt w c i hi2]
            exact h.mem_eq i hi2
        · intro d hd
          rcases List.mem_append.1 hd with hd | hd
          · exact h.nz d hd
          · simp at hd; subst hd; exact hc
        · intro i hi
          simp only [St.put, St.store, h.path_eq, List.mem_cons] at hi
          rcases hi with hi | hi
          · omega
          · exact h.log_lt i hi
      have := ih (w ++ [c]) _ hnext hs
      simpa only [List.append_assoc, List.singleton_append] using this

theorem composed_noNul (drive dir fname ext : LPCWSTR) (hv : Valid drive dir fname ext) :
    ∀ c ∈ composed drive dir fname ext, c ≠ 0 := by
  obtain ⟨hzd, hzr, hzf, hze⟩ := hv
  intro c hc
  simp only [composed, List.mem_append] at hc
  rcases hc with ((hc | hc) | hc) | hc
  · match drive, hzd, hc with
    | some (a :: t), hzd, hc =>
      simp only [drivePart, List.mem_cons, List.mem_singleton, List.not_mem_nil,
        or_false] at hc
      rcases hc with rfl | rfl
      · exact hzd _ (by simp)
      · simp [colon]
  · match dir, hzr, hc with
    | some d, hzr, hc =>
      simp only [dirPart] at hc
      split at hc
      · exact hzr c hc
      · rcases List.mem_append.1 hc with hc | hc
        · exact hzr c hc
        · simp at hc; subst hc; simp [backslash]
  · match fname, hzf, hc with
    | some f, hzf, hc => exact hzf c hc
  · match ext, hze, hc with
    | some (a :: e), hze, hc =>
      simp only [extPart] at hc
      split at hc
      · exact hze c hc
      · rcases List.mem_cons.1 hc with hc | hc
        · rw [hc]; simp [dot]
        · exact hze c hc

/-- The reference assembler leaves the first `cap - 1` characters of the
composition and a terminator, and stores inside the buffer. -/
theorem refAssemble_fin (cap : Nat) (hpos : 0 < cap) (mem : Nat → WCHAR)
    (drive dir fname ext : LPCWSTR) (hv : Valid drive dir fname ext) :
    Final cap ((composed drive dir fname ext).take (cap - 1))
      (refAssemble cap mem drive dir fname ext) := by
  have h0 : RefRunning cap [] { mem := mem, path := 0, count := 0, p := 0, log := [] } :=
    ⟨rfl, rfl, by simp, by simp, by simp, by simp⟩
  have := refLoop_fin cap hpos (composed drive dir fname ext) [] _ h0
    (composed_noNul drive dir fname ext hv)
  simpa only [List.nil_append] using this

/-- C16: for valid components (directory null or non-empty), the reference
assembler, which tests the count before every character and before the
terminator, and `MakePath`, which tests it after each character of the
directory, file name and extension stages, leave the same string. -/
theorem MakePath_refines_check_before_write (mem : Nat → WCHAR)
    (drive dir fname ext : LPCWSTR) (hv : Valid drive dir fname ext) (hne : dir ≠ some []) :
    ∃ s, pathOut mem drive dir fname ext = some s ∧
      bufString MAX_PATH (refAssemble MAX_PATH mem drive dir fname ext).mem = some s :=
  ⟨_, pathOut_eq mem drive dir fname ext hv hne,
    (refAssemble_fin MAX_PATH (by simp [MAX_PATH]) mem drive dir fname ext hv).bufString_eq⟩

theorem MakePath_refines_check_before_write_witness :
    ∃ s, pathOut (fun _ => 65) (some (wstr "C")) (some (List.replicate 300 97))
        (some (wstr "report")) (some (wstr "log")) = some s ∧
      bufString MAX_PATH (refAssemble MAX_PATH (fun _ => 65) (some (wstr "C"))
        (some (List.replicate 300 97)) (some (wstr "report")) (some (wstr "log"))).mem
        = some s :=
  MakePath_refines_check_before_write (fun _ => 65) (some (wstr "C"))
    (some (List.replicate 300 97)) (some (wstr "report")) (some (wstr "log"))
    ⟨by decide, noNul_replicate 300 97 (by decide), by decide, by decide⟩
    (replicate_ne_nil 300 97 (by decide))

/-- C17: for valid components (directory null or non-empty), the string left
for the drive and directory alone is a prefix of the string left when the
file name is added, which is a prefix of the string left when the extension
is added too, truncated or not. -/
theorem MakePath_stagewise_monotone (mem : Nat → WCHAR) (drive dir fname ext : LPCWSTR)
    (hv : Valid drive dir fname ext) (hne : dir ≠ some []) :
    ∃ s1 s2 s3, pathOut mem drive dir none none = some s1 ∧
      pathOut mem drive dir fname none = some s2 ∧
      pathOut mem drive dir fname ext = some s3 ∧
      s1 <+: s2 ∧ s2 <+: s3 := by
  obtain ⟨hzd, hzr, hzf, hze⟩ := hv
  have hnone : NoNul none := trivial
  refine ⟨_, _, _, pathOut_eq mem drive dir none none ⟨hzd, hzr, hnone, hnone⟩ hne,
    pathOut_eq mem drive dir fname none ⟨hzd, hzr, hzf, hnone⟩ hne,
    pathOut_eq mem drive dir fname ext ⟨hzd, hzr, hzf, hze⟩ hne, ?_, ?_⟩
  · apply List.IsPrefix.take
    simp only [composed, fnamePart, extPart, List.append_nil]
    exact List.prefix_append _ _
  · apply List.IsPrefix.take
    simp only [composed, extPart, List.append_nil]
    exact List.prefix_append _ _

theorem MakePath_stagewise_monotone_witness :
    ∃ s1 s2 s3,
      pathOut (fun _ => 65) (some (wstr "C")) (some (wstr "temp")) none none = some s1 ∧
      pathOut (fun _ => 65) (some (wstr "C")) (some (wstr "temp")) (some (wstr "report"))
        none = some s2 ∧
      pathOut (fun _ => 65) (some (wstr "C")) (some (wstr "temp")) (some (wstr "report"))
        (some (wstr "log")) = some s3 ∧
      s1 <+: s2 ∧ s2 <+: s3 :=
  MakePath_stagewise_monotone (fun _ => 65) (some (wstr "C")) (some (wstr "temp"))
    (some (wstr "report")) (some (wstr "log")) (by decide) (by decide)

end MakePathModel
